import Mathlib

/-!
Shallow embedding of the `mara_watch` repository (Rust) in Lean 4.

Rust strings (`String`/`&str`/`PathBuf`) are modelled as `List Char`;
byte lengths are computed from the UTF-8 size of each scalar value.
File contents (`Vec<u8>`) are modelled as `List Nat`.  Fallible
operations return `Option` (`none` models `Err`/a panic, as noted at
each definition).

Embedded source files:
  * src/lib/events.rs          (FileEvent, EventKind, EventOrigin)
  * src/lib/manager.rs         (SyncProcess::execute, Manager's watcher
                                callback and dispatch_event, the
                                sync_map `HashMap<String,String>`)
  * src/processors/sync_a_to_b.rs, src/processors/sync_a_to_c.rs
  * src/processors/todo_processor.rs   (TodoLog::parse / render)
  * src/processors/doku_processor.rs   (DokuIndex::create_summary)
-/

/-! ## Basic string model: Rust `&str` as `List Char` -/

/-- UTF-8 byte size of one Unicode scalar value (Rust `char::len_utf8`). -/
def csize (c : Char) : Nat :=
  if c.toNat < 128 then 1
  else if c.toNat < 2048 then 2
  else if c.toNat < 65536 then 3
  else 4

/-- Byte length of a string (Rust `str::len`). -/
def blen : List Char → Nat
  | [] => 0
  | c :: cs => csize c + blen cs

/-- Rust `char::is_whitespace` (the Unicode White_Space property). -/
def isWsB (c : Char) : Bool :=
  let n := c.toNat
  (0x09 ≤ n && n ≤ 0x0D) || n == 0x20 || n == 0x85 || n == 0xA0 ||
  n == 0x1680 || (0x2000 ≤ n && n ≤ 0x200A) || n == 0x2028 ||
  n == 0x2029 || n == 0x202F || n == 0x3000 || n == 0x205F

/-- Rust `str::trim_start`: drop leading whitespace. -/
def trimL (s : List Char) : List Char := s.dropWhile isWsB

/-- Rust `str::trim_end`: drop trailing whitespace. -/
def trimR : List Char → List Char
  | [] => []
  | c :: cs =>
    match trimR cs with
    | [] => if isWsB c then [] else [c]
    | r => c :: r

/-- Rust `str::trim`. -/
def rtrim (s : List Char) : List Char := trimR (trimL s)

/-- The head (if any) is not whitespace. -/
def headNotWs : List Char → Bool
  | [] => true
  | c :: _ => !isWsB c

/-- The last character (if any) is not whitespace. -/
def lastNotWs (s : List Char) : Bool :=
  match s.getLast? with
  | none => true
  | some c => !isWsB c

/-- A string equal to its own `trim`: no leading or trailing whitespace. -/
def trimmedB (s : List Char) : Bool := headNotWs s && lastNotWs s

/-- Split a string at every occurrence of a separator character,
keeping (possibly empty) segments; `Rust str::split(sep)`. -/
def splitCh (sep : Char) : List Char → List (List Char)
  | [] => [[]]
  | c :: cs =>
    if c = sep then [] :: splitCh sep cs
    else
      match splitCh sep cs with
      | [] => [[c]]
      | l :: ls => (c :: l) :: ls

/-- Strip one trailing carriage return (part of Rust `str::lines`). -/
def stripCr (l : List Char) : List Char :=
  if l.getLast? = some '\r' then l.dropLast else l

/-- Drop a trailing empty segment (split-terminator semantics). -/
def dropLastEmpty (ls : List (List Char)) : List (List Char) :=
  if ls.getLast? = some [] then ls.dropLast else ls

/-- Rust `str::lines`: split on `'\n'`, drop a final empty segment,
strip one `'\r'` from the end of every line. -/
def rustLines (s : List Char) : List (List Char) :=
  (dropLastEmpty (splitCh '\n' s)).map stripCr

/-- Rust `str::contains(pat)` for a string pattern: substring test. -/
def containsSub (pat : List Char) : List Char → Bool
  | [] => pat.isEmpty
  | c :: cs => pat.isPrefixOf (c :: cs) || containsSub pat cs

/-- Rust `str::ends_with` for a string pattern. -/
def endsWithB (suf s : List Char) : Bool :=
  suf.reverse.isPrefixOf s.reverse

/-- Rust `Path::join` for a relative right operand. -/
def pjoin (a b : List Char) : List Char := a ++ '/' :: b

/-- Rust `Path::file_name` composed with `to_str`: the final path
component, skipping empty and `.` components; `none` when the path is
empty or ends in `..` (mirrors `std::path` component normalization for
the simple Unix-style paths this repository builds). -/
def fileName (s : List Char) : Option (List Char) :=
  let segs := (splitCh '/' s).filter (fun l => l ≠ [] ∧ l ≠ ['.'])
  match segs.getLast? with
  | none => none
  | some l => if l = ['.', '.'] then none else some l

/-- Concatenate lines, terminating each with a newline. -/
def joinNl (ls : List (List Char)) : List Char :=
  (ls.map (fun l => l ++ ['\n'])).flatten


/-! ## Event model (src/lib/events.rs) -/

/-- `EventKind` from events.rs. -/
inductive EventKind
  | create
  | modify
  | delete
deriving DecidableEq

/-- `EventOrigin` from events.rs: external edit, or a named process's
own write. -/
inductive EventOrigin
  | external
  | internal (process_name : List Char)
deriving DecidableEq

/-- `FileEvent` from events.rs. -/
structure FileEvent where
  path : List Char
  event_kind : EventKind
  origin : EventOrigin
deriving DecidableEq

/-- `FileEvent::new`: origin defaults to `External`. -/
def FileEvent.new (path : List Char) (event_kind : EventKind) : FileEvent :=
  ⟨path, event_kind, .external⟩

/-- `FileEvent::with_origin`. -/
def FileEvent.with_origin (e : FileEvent) (origin : EventOrigin) : FileEvent :=
  { e with origin := origin }

/-! ## The sync map (manager.rs: `HashMap<String, String>`,
target path -> process name).  Modelled as an association list with
map semantics: `insert` replaces any existing value for the key. -/

abbrev SyncMap := List (List Char × List Char)

/-- `HashMap::get` (by string equality of the key). -/
def smGet (m : SyncMap) (k : List Char) : Option (List Char) :=
  (m.find? (fun q => q.1 == k)).map (fun q => q.2)

/-- `HashMap::remove`. -/
def smErase (m : SyncMap) (k : List Char) : SyncMap :=
  m.filter (fun q => !(q.1 == k))

/-- `HashMap::insert`: replaces any previous mapping of the key. -/
def smInsert (m : SyncMap) (k v : List Char) : SyncMap :=
  smErase m k ++ [(k, v)]

/-! ## Filesystem model.  A `World` carries the regular files and the
sets of paths on which each fallible operation fails, so that read,
write and remove errors of the Rust code are representable. -/

structure World where
  files : List (List Char × List Nat)
  failReads : List (List Char)
  failWrites : List (List Char)
  failRemoves : List (List Char)
deriving DecidableEq

/-- `fs::read`: `none` models `Err` (missing file or read failure). -/
def World.read (w : World) (p : List Char) : Option (List Nat) :=
  if p ∈ w.failReads then none
  else (w.files.find? (fun q => q.1 == p)).map (fun q => q.2)

/-- `Path::exists`. -/
def World.fileExists (w : World) (p : List Char) : Bool :=
  (w.files.find? (fun q => q.1 == p)).isSome

/-- `fs::write`: `none` models `Err`; on success the file is replaced. -/
def World.write (w : World) (p : List Char) (c : List Nat) : Option World :=
  if p ∈ w.failWrites then none
  else some { w with files := w.files.filter (fun q => !(q.1 == p)) ++ [(p, c)] }

/-- `fs::remove_file`: `none` models `Err`. -/
def World.removeFile (w : World) (p : List Char) : Option World :=
  if p ∈ w.failRemoves then none
  else some { w with files := w.files.filter (fun q => !(q.1 == p)) }

/-! ## SyncProcess (src/lib/manager.rs / src/lib/process.rs) -/

/-- A registered sync process: name plus filter/target/transform
function pointers.  `transform` returning `none` models
`Err(Box<dyn Error>)`. -/
structure SyncProcess where
  name : List Char
  filter : FileEvent → Bool
  target : FileEvent → Option (List Char)
  transform : FileEvent → List Nat → Option (List Nat)

/-- One observable side effect of `SyncProcess::execute`, in program
order: filesystem reads/writes/removes and sync-map updates. -/
inductive Effect
  | fsRead (p : List Char)
  | fsWrite (p : List Char)
  | mapInsert (p name : List Char)
  | fsRemove (p : List Char)
  | mapRemove (p : List Char)
deriving DecidableEq

/-- Result of `SyncProcess::execute`: `ok = false` models `Err`;
`trace` lists the performed (or attempted, for the final failing one)
side effects in program order. -/
structure ExecResult where
  ok : Bool
  sync_map : SyncMap
  world : World
  trace : List Effect
deriving DecidableEq

/-- `SyncProcess::execute` (manager.rs lines 30-95): filter check,
target computation, then for Create/Modify read -> transform -> write
-> `sync_map.insert`, and for Delete conditional remove ->
`sync_map.remove`.  Each `?` early-returns `Err` as `ok = false`. -/
def SyncProcess.execute (self : SyncProcess) (event : FileEvent)
    (sync_map : SyncMap) (w : World) : ExecResult :=
  if !(self.filter event) then ⟨true, sync_map, w, []⟩
  else
    match self.target event with
    | none => ⟨true, sync_map, w, []⟩
    | some target_path =>
      match event.event_kind with
      | .create | .modify =>
        match w.read event.path with
        | none => ⟨false, sync_map, w, [.fsRead event.path]⟩
        | some content =>
          match self.transform event content with
          | none => ⟨false, sync_map, w, [.fsRead event.path]⟩
          | some transformed =>
            match w.write target_path transformed with
            | none => ⟨false, sync_map, w,
                [.fsRead event.path, .fsWrite target_path]⟩
            | some w2 =>
              ⟨true, smInsert sync_map target_path self.name, w2,
                [.fsRead event.path, .fsWrite target_path,
                 .mapInsert target_path self.name]⟩
      | .delete =>
        if w.fileExists target_path then
          match w.removeFile target_path with
          | none => ⟨false, sync_map, w, [.fsRemove target_path]⟩
          | some w2 =>
            ⟨true, smErase sync_map target_path, w2,
              [.fsRemove target_path, .mapRemove target_path]⟩
        else ⟨true, smErase sync_map target_path, w, [.mapRemove target_path]⟩

/-! ## Dispatcher (manager.rs: `Manager::dispatch_event` and the
watcher callback in `Manager::run`) -/

/-- `Manager::dispatch_event`: every registered process is executed in
registration order; an `Err` from one process is logged and ignored. -/
def dispatchEvent (processes : List SyncProcess) (event : FileEvent)
    (sync_map : SyncMap) (w : World) : SyncMap × World × List Effect :=
  match processes with
  | [] => (sync_map, w, [])
  | p :: rest =>
    let r := p.execute event sync_map w
    let rr := dispatchEvent rest event r.sync_map r.world
    (rr.1, rr.2.1, r.trace ++ rr.2.2)

/-- The origin lookup in the watcher callback (manager.rs lines
154-160 and 169-175): `sync_map.get(&path_str)` — a non-consuming
`get`, not a removal. -/
def classifyOrigin (sync_map : SyncMap) (path : List Char) : EventOrigin :=
  match smGet sync_map path with
  | some process_name => .internal process_name
  | none => .external

/-- The raw notification kinds of the `notify` crate that the callback
distinguishes. -/
inductive RawKind
  | create
  | modify
  | remove
  | other
deriving DecidableEq

/-- The `FileEvent` the watcher callback builds for one notified path
(manager.rs lines 149-186): Create/Modify are dispatched only for
existing regular files and get their origin from the sync map;
Remove is dispatched unconditionally with the default origin
(`External`); other kinds are dropped (`none`). -/
def notificationEvent (sync_map : SyncMap) (w : World) (raw : RawKind)
    (path : List Char) : Option FileEvent :=
  match raw with
  | .create =>
    if w.fileExists path then
      some ((FileEvent.new path .create).with_origin (classifyOrigin sync_map path))
    else none
  | .modify =>
    if w.fileExists path then
      some ((FileEvent.new path .modify).with_origin (classifyOrigin sync_map path))
    else none
  | .remove => some (FileEvent.new path .delete)
  | .other => none

/-- One notified path handled end to end by the watcher callback:
normalize, classify, dispatch. -/
def handleNotification (processes : List SyncProcess) (sync_map : SyncMap)
    (w : World) (raw : RawKind) (path : List Char) :
    SyncMap × World × List Effect :=
  match notificationEvent sync_map w raw path with
  | some event => dispatchEvent processes event sync_map w
  | none => (sync_map, w, [])

/-! ## Processor plugins (src/processors/sync_a_to_b.rs and
src/processors/sync_a_to_c.rs) -/

/-- `create_sync_a_to_b`: unidirectional sync of `.txt` files from
`_mara/a` to `_mara/b`, identity transform.  Note: the filter does not
inspect `event.origin`. -/
def create_sync_a_to_b : SyncProcess where
  name := "A->B (txt files)".data
  filter := fun event =>
    let is_from_a := containsSub "_mara/a".data event.path
    let is_txt :=
      match fileName event.path with
      | some nm => endsWithB ".txt".data nm
      | none => false
    is_from_a && is_txt
  target := fun event =>
    (fileName event.path).map (fun filename => pjoin "_mara/b".data filename)
  transform := fun _ content => some content

/-- `create_sync_a_to_c`: bidirectional sync between `_mara/a` and
`_mara/c`; the filter ignores events whose origin is this process's
own name. -/
def create_sync_a_to_c : SyncProcess where
  name := "A<->C (bidirectional)".data
  filter := fun event =>
    let right_path := containsSub "_mara/a".data event.path ||
      containsSub "_mara/c".data event.path
    let right_origin :=
      match event.origin with
      | .external => true
      | .internal process_name => process_name != "A<->C (bidirectional)".data
    right_path && right_origin
  target := fun event =>
    match fileName event.path with
    | none => none
    | some filename =>
      if containsSub "_mara/a".data event.path then
        some (pjoin "_mara/c".data filename)
      else if containsSub "_mara/c".data event.path then
        some (pjoin "_mara/a".data filename)
      else none
  transform := fun _ content => some content

/-- `a` occurs strictly before a later occurrence of `b` in the trace. -/
def precedesB (a b : Effect) : List Effect → Bool
  | [] => false
  | x :: xs => (x == a && xs.contains b) || precedesB a b xs

/-- A process whose transform always fails (models a processor whose
`transform` returns `Err`, e.g. a failing remote call). -/
def failingProc : SyncProcess where
  name := "P1 (failing transform)".data
  filter := fun _ => true
  target := fun _ => some "_mara/b/fail.txt".data
  transform := fun _ _ => none

/-- Fixture: a world holding one file `_mara/a/x.txt` with content "hi". -/
def wA : World := ⟨[("_mara/a/x.txt".data, [104, 105])], [], [], []⟩

/-- Fixture: an external Create event for `_mara/a/x.txt`. -/
def evA : FileEvent := ⟨"_mara/a/x.txt".data, .create, .external⟩

/-! ## Todo processor (src/processors/todo_processor.rs) -/

/-- `TodoEntry` from todo_processor.rs. -/
structure TodoEntry where
  text : List Char
  completed : Bool
deriving DecidableEq

/-- `TodoEntry::new`. -/
def TodoEntry.new (text : List Char) : TodoEntry := ⟨text, false⟩

/-- `TodoEntry::with_status`. -/
def TodoEntry.with_status (text : List Char) (completed : Bool) : TodoEntry :=
  ⟨text, completed⟩

/-- `TodoLog` from todo_processor.rs. -/
structure TodoLog where
  entries : List TodoEntry
deriving DecidableEq

/-- The separator between active and completed todos (17 dashes). -/
def todoSep : List Char := "-----------------".data

/-- Loop state of `TodoLog::parse`: the four accumulators and the two
section flags of the Rust for-loop. -/
structure TodoParseSt where
  active : List TodoEntry
  completed : List TodoEntry
  newTodos : List (List Char)
  inNew : Bool
  inCompleted : Bool
deriving DecidableEq

/-- Initial state of the parse loop. -/
def todoInit : TodoParseSt := ⟨[], [], [], false, false⟩

/-- One iteration of the `TodoLog::parse` loop (todo_processor.rs lines
62-113), checking, in source order: the `Neues Todo:` header, the
`Todos:` header, empty lines, the separator, the new-todo section, and
finally `[`-prefixed todo items (the `find("]")` is the first `]`; the
slices around it are trimmed, `x`/`X` marks completion).  The
emptiness test of the new-todo branch is implied by the earlier
empty-line `continue`. -/
def todoStep (st : TodoParseSt) (line : List Char) : TodoParseSt :=
  let trimmed := rtrim line
  if "Neues Todo:".data.isPrefixOf trimmed then
    { st with inNew := true, inCompleted := false }
  else if "Todos:".data.isPrefixOf trimmed then { st with inNew := false }
  else if trimmed = [] then st
  else if todoSep.isPrefixOf trimmed then { st with inCompleted := true }
  else if st.inNew then { st with newTodos := st.newTodos ++ [trimmed] }
  else if "[".data.isPrefixOf trimmed then
    match trimmed.findIdx? (fun c => c == ']') with
    | some close_bracket =>
      if 1 ≤ close_bracket then
        let checkbox := rtrim ((trimmed.drop 1).take (close_bracket - 1))
        let text := rtrim (trimmed.drop (close_bracket + 1))
        let completed := checkbox == ['x'] || checkbox == ['X']
        let entry := TodoEntry.with_status text completed
        if st.inCompleted then { st with completed := st.completed ++ [entry] }
        else { st with active := st.active ++ [entry] }
      else st
    | none => st
  else st

/-- `TodoLog::parse` on a pre-split line list: run the loop, then emit
new todos first, then active, then completed. -/
def TodoLog.parseLines (lines : List (List Char)) : TodoLog :=
  let fin := lines.foldl todoStep todoInit
  ⟨fin.newTodos.map TodoEntry.new ++ fin.active ++ fin.completed⟩

/-- `TodoLog::parse`. -/
def TodoLog.parse (content : List Char) : TodoLog :=
  TodoLog.parseLines (rustLines content)

/-- The rendered line of a not-completed entry: `"[] {text}"`. -/
def todoActiveLine (e : TodoEntry) : List Char := "[] ".data ++ e.text

/-- The rendered line of a completed entry: `"[x] {text}"`. -/
def todoDoneLine (e : TodoEntry) : List Char := "[x] ".data ++ e.text

/-- `TodoLog::render` (todo_processor.rs lines 134-157): header, active
entries, separator when any entry is completed, completed entries. -/
def TodoLog.render (log : TodoLog) : List Char :=
  let active := log.entries.filter (fun e => !e.completed)
  let completed := log.entries.filter (fun e => e.completed)
  "Neues Todo:\n\nTodos:\n".data
    ++ joinNl (active.map todoActiveLine)
    ++ (if completed.isEmpty then [] else todoSep ++ ['\n'])
    ++ joinNl (completed.map todoDoneLine)

/-! ## Doku processor (src/processors/doku_processor.rs):
`DokuIndex::create_summary` -/

/-- Fuel-based worker for `removePat`; every step consumes at least one
character, so fuel equal to the string length suffices. -/
def removePatAux (p : Char) (ps : List Char) : Nat → List Char → List Char
  | 0, _ => []
  | _, [] => []
  | Nat.succ f, c :: cs =>
    if (p :: ps).isPrefixOf (c :: cs) then removePatAux p ps f (cs.drop ps.length)
    else c :: removePatAux p ps f cs

/-- Rust `str::replace(pat, "")` for the non-empty pattern
`p :: ps`: remove all non-overlapping occurrences, left to right. -/
def removePat (p : Char) (ps : List Char) (s : List Char) : List Char :=
  removePatAux p ps s.length s

/-- The markdown-stripping chain of `create_summary`:
`.replace("**","").replace("_","").replace("`","").replace("[","").replace("]","")`. -/
def cleanLine (t : List Char) : List Char :=
  removePat ']' []
    (removePat '[' []
      (removePat (Char.ofNat 96) []
        (removePat '_' []
          (removePat '*' ['*'] t))))

/-- Rust `String::truncate (n)` on the UTF-8 byte index `n`: keeps the
first `n` bytes; `none` models the panic raised when `n` is below the
length but not on a character boundary. -/
def truncateBytes : List Char → Nat → Option (List Char)
  | _, 0 => some []
  | [], _ => some []
  | c :: cs, Nat.succ n =>
    if csize c ≤ n + 1 then
      (truncateBytes cs (n + 1 - csize c)).map (fun r => c :: r)
    else none

/-- The per-line summary update of `create_summary`: start the summary
with the first clean line, then append with a space separator while
under 300 bytes. -/
def summaryStep (summary clean_line : List Char) : List Char :=
  if summary = [] then clean_line
  else if blen summary < 300 then summary ++ ' ' :: clean_line
  else summary

/-- The line loop of `create_summary` (doku_processor.rs lines
144-171): skip blank/header/rule lines, strip markdown, append with a
space separator while under 300 bytes, and on reaching 300 bytes
truncate and append `"..."` (`none` models the `truncate` panic). -/
def summaryLoop : List (List Char) → List Char → Option (List Char)
  | [], summary => some summary
  | line :: rest, summary =>
    let trimmed := rtrim line
    if trimmed = [] || "#".data.isPrefixOf trimmed ||
        "---".data.isPrefixOf trimmed then
      summaryLoop rest summary
    else
      let clean_line := cleanLine trimmed
      let summary2 := summaryStep summary clean_line
      if 300 ≤ blen summary2 then
        (truncateBytes summary2 300).map (fun s => s ++ "...".data)
      else summaryLoop rest summary2

/-- `DokuIndex::create_summary` (doku_processor.rs lines 140-178);
`none` models a panic, and the empty summary becomes `"[No content]"`. -/
def DokuIndex.create_summary (content : List Char) : Option (List Char) :=
  (summaryLoop (rustLines content) []).map
    (fun summary => if summary = [] then "[No content]".data else summary)

/-- Well-formedness of a parsed todo entry: its text is trimmed and
contains no newline (every text produced by `TodoLog::parse` is). -/
def entryWF (e : TodoEntry) : Prop :=
  trimmedB e.text = true ∧ ('\n' : Char) ∉ e.text

/-- Well-formedness of a parse-loop state: all accumulated texts are
trimmed and newline-free. -/
def stWF (st : TodoParseSt) : Prop :=
  (∀ t ∈ st.newTodos, trimmedB t = true ∧ ('\n' : Char) ∉ t) ∧
  (∀ e ∈ st.active, entryWF e) ∧ (∀ e ∈ st.completed, entryWF e)

/-! ## Theorems -/

/-! ### Lemmas about trimming -/

theorem lastNotWs_single (c : Char) : lastNotWs [c] = !isWsB c := rfl

theorem lastNotWs_cons_cons (c d : Char) (ds : List Char) :
    lastNotWs (c :: d :: ds) = lastNotWs (d :: ds) := by
  simp [lastNotWs, List.getLast?_cons_cons]

theorem trimR_cons_of_ne (c : Char) (s : List Char) (h : trimR s ≠ []) :
    trimR (c :: s) = c :: trimR s := by
  cases hr : trimR s with
  | nil => exact absurd hr h
  | cons d ds => simp [trimR, hr]

theorem trimR_eq_self (s : List Char) (h : lastNotWs s = true) : trimR s = s := by
  induction s with
  | nil => rfl
  | cons c cs ih =>
    cases hcs : cs with
    | nil =>
      rw [hcs, lastNotWs_single] at h
      simp at h
      simp [trimR, h]
    | cons d ds =>
      rw [hcs] at ih h
      rw [lastNotWs_cons_cons] at h
      have hR := ih h
      rw [trimR_cons_of_ne c (d :: ds) (by rw [hR]; simp), hR]

theorem lastNotWs_trimR (s : List Char) : lastNotWs (trimR s) = true := by
  induction s with
  | nil => rfl
  | cons c cs ih =>
    cases hr : trimR cs with
    | nil =>
      by_cases hw : isWsB c
      · simp [trimR, hr, hw, lastNotWs]
      · simp [trimR, hr, hw, lastNotWs]
    | cons d ds =>
      rw [hr] at ih
      have : trimR (c :: cs) = c :: d :: ds := by simp [trimR, hr]
      rw [this, lastNotWs_cons_cons]
      exact ih

theorem trimR_headNot (s : List Char) :
    (trimR s).head? = s.head? ∨ trimR s = [] := by
  cases s with
  | nil => exact Or.inr rfl
  | cons c cs =>
    cases hr : trimR cs with
    | nil =>
      by_cases hw : isWsB c
      · exact Or.inr (by simp [trimR, hr, hw])
      · exact Or.inl (by simp [trimR, hr, hw])
    | cons d ds =>
      exact Or.inl (by simp [trimR, hr])

theorem mem_trimR (s : List Char) (a : Char) (h : a ∈ trimR s) : a ∈ s := by
  induction s with
  | nil => simp [trimR] at h
  | cons c cs ih =>
    cases hr : trimR cs with
    | nil =>
      rw [trimR] at h
      rw [hr] at h
      by_cases hw : isWsB c
      · simp [hw] at h
      · simp [hw] at h
        simp [h]
    | cons d ds =>
      rw [trimR] at h
      rw [hr] at h
      simp at h
      rcases h with h | h
      · simp [h]
      · have := ih (by rw [hr]; simp [h])
        simp [this]

theorem headNotWs_trimL (s : List Char) : headNotWs (trimL s) = true := by
  induction s with
  | nil => rfl
  | cons c cs ih =>
    by_cases hw : isWsB c
    · simpa [trimL, List.dropWhile, hw] using ih
    · simp [trimL, List.dropWhile, hw, headNotWs]

theorem trimL_eq_self (s : List Char) (h : headNotWs s = true) : trimL s = s := by
  cases s with
  | nil => rfl
  | cons c cs =>
    simp [headNotWs] at h
    simp [trimL, List.dropWhile, h]

theorem mem_trimL (s : List Char) (a : Char) (h : a ∈ trimL s) : a ∈ s :=
  List.Sublist.mem h (List.dropWhile_sublist _)

theorem trimmedB_rtrim (s : List Char) : trimmedB (rtrim s) = true := by
  have h1 : lastNotWs (rtrim s) = true := lastNotWs_trimR (trimL s)
  have h2 : headNotWs (rtrim s) = true := by
    rcases trimR_headNot (trimL s) with h | h
    · have hl := headNotWs_trimL s
      unfold rtrim
      cases he : trimR (trimL s) with
      | nil => rfl
      | cons c cs =>
        rw [he] at h
        cases hl' : trimL s with
        | nil => rw [hl'] at h; simp at h
        | cons d ds =>
          rw [hl'] at h hl
          simp at h
          subst h
          exact hl
    · unfold rtrim
      rw [h]
      rfl
  simp [trimmedB, h1, h2]

theorem rtrim_eq_self (s : List Char) (h : trimmedB s = true) : rtrim s = s := by
  simp [trimmedB] at h
  unfold rtrim
  rw [trimL_eq_self s h.1, trimR_eq_self s h.2]

theorem mem_rtrim (s : List Char) (a : Char) (h : a ∈ rtrim s) : a ∈ s :=
  mem_trimL s a (mem_trimR (trimL s) a h)

theorem rtrim_cons_ws (c : Char) (s : List Char) (h : isWsB c = true) :
    rtrim (c :: s) = rtrim s := by
  simp [rtrim, trimL, List.dropWhile, h]

theorem rtrim_eq_of_trimmed_tail (c : Char) (s : List Char)
    (hc : isWsB c = false) (hs : trimmedB s = true) (hne : s ≠ []) :
    rtrim (c :: s) = c :: s := by
  have htl : trimL (c :: s) = c :: s := by
    simp [trimL, List.dropWhile, hc]
  have hR : trimR s = s := by
    simp [trimmedB] at hs
    exact trimR_eq_self s hs.2
  unfold rtrim
  rw [htl, trimR_cons_of_ne c s (by rw [hR]; exact hne), hR]

/-! ### Lemmas about line splitting -/

theorem splitCh_ne_nil (sep : Char) (s : List Char) : splitCh sep s ≠ [] := by
  cases s with
  | nil => simp [splitCh]
  | cons c cs =>
    by_cases h : c = sep
    · simp [splitCh, h]
    · cases hr : splitCh sep cs with
      | nil => simp [splitCh, h, hr]
      | cons l ls => simp [splitCh, h, hr]

theorem splitCh_append_sep (sep : Char) (a b : List Char) (h : sep ∉ a) :
    splitCh sep (a ++ sep :: b) = a :: splitCh sep b := by
  induction a with
  | nil => simp [splitCh]
  | cons c cs ih =>
    have hc : ¬ c = sep := by intro hcc; exact h (by simp [hcc])
    have hcs : sep ∉ cs := fun hm => h (by simp [hm])
    have hstep := ih hcs
    simp only [List.cons_append, splitCh, List.append_eq, hc, if_false]
    rw [hstep]

theorem mem_splitCh_no_sep (sep : Char) (s : List Char) :
    ∀ l ∈ splitCh sep s, sep ∉ l := by
  induction s with
  | nil =>
    intro l hl
    simp [splitCh] at hl
    simp [hl]
  | cons c cs ih =>
    intro l hl
    rw [splitCh] at hl
    by_cases h : c = sep
    · simp [h] at hl
      rcases hl with hl | hl
      · simp [hl]
      · exact ih l hl
    · cases hr : splitCh sep cs with
      | nil => exact absurd hr (splitCh_ne_nil sep cs)
      | cons x xs =>
        rw [hr] at hl
        simp [h] at hl
        rcases hl with hl | hl
        · subst hl
          intro hm
          rcases List.mem_cons.mp hm with hm | hm
          · exact h hm.symm
          · exact absurd hm (ih x (by rw [hr]; exact List.mem_cons_self x xs))
        · exact ih l (by rw [hr]; exact List.mem_cons_of_mem x hl)

theorem dropLastEmpty_cons (a : List Char) (r : List (List Char)) (h : r ≠ []) :
    dropLastEmpty (a :: r) = a :: dropLastEmpty r := by
  unfold dropLastEmpty
  cases r with
  | nil => exact absurd rfl h
  | cons x xs =>
    rw [List.getLast?_cons_cons]
    by_cases hl : (x :: xs).getLast? = some []
    · simp [hl]
    · simp [hl]

theorem rustLines_nil : rustLines [] = [] := rfl

theorem rustLines_line (a t : List Char) (h : ('\n' : Char) ∉ a) :
    rustLines (a ++ '\n' :: t) = stripCr a :: rustLines t := by
  unfold rustLines
  rw [splitCh_append_sep '\n' a t h,
    dropLastEmpty_cons a _ (splitCh_ne_nil '\n' t), List.map_cons]

theorem joinNl_append (a b : List (List Char)) :
    joinNl (a ++ b) = joinNl a ++ joinNl b := by
  simp [joinNl]

theorem rustLines_joinNl (L : List (List Char)) (t : List Char)
    (h : ∀ l ∈ L, ('\n' : Char) ∉ l ∧ stripCr l = l) :
    rustLines (joinNl L ++ t) = L ++ rustLines t := by
  induction L with
  | nil => simp [joinNl]
  | cons a as ih =>
    have ha := h a (by simp)
    have : joinNl (a :: as) ++ t = a ++ '\n' :: (joinNl as ++ t) := by
      simp [joinNl]
    rw [this, rustLines_line _ _ ha.1, ha.2,
      ih (fun l hl => h l (by simp [hl]))]
    rfl

theorem mem_dropLastEmpty (ls : List (List Char)) (l : List Char)
    (h : l ∈ dropLastEmpty ls) : l ∈ ls := by
  unfold dropLastEmpty at h
  by_cases hl : ls.getLast? = some []
  · simp [hl] at h
    exact List.Sublist.mem h (List.dropLast_sublist _)
  · simpa [hl] using h

theorem mem_stripCr (l : List Char) (c : Char) (h : c ∈ stripCr l) : c ∈ l := by
  unfold stripCr at h
  by_cases hl : l.getLast? = some '\r'
  · simp [hl] at h
    exact List.Sublist.mem h (List.dropLast_sublist _)
  · simpa [hl] using h

theorem rustLines_no_nl (s : List Char) :
    ∀ l ∈ rustLines s, ('\n' : Char) ∉ l := by
  intro l hl hmem
  unfold rustLines at hl
  simp at hl
  rcases hl with ⟨x, hx, hxl⟩
  have hx' : x ∈ splitCh '\n' s := mem_dropLastEmpty _ x hx
  have : ('\n' : Char) ∈ x := by
    rw [← hxl] at hmem
    exact mem_stripCr x _ hmem
  exact mem_splitCh_no_sep '\n' s x hx' this

/-! ### Sync-map lemmas -/

theorem mem_smErase_ne (m : SyncMap) (p : List Char) (q : List Char × List Char)
    (hq : q ∈ smErase m p) : (q.1 == p) = false := by
  have := (List.mem_filter.mp hq).2
  simpa using this

theorem smGet_append_single (l : SyncMap) (p v : List Char)
    (h : ∀ q ∈ l, (q.1 == p) = false) :
    smGet (l ++ [(p, v)]) p = some v := by
  induction l with
  | nil => simp [smGet, List.find?]
  | cons q l ih =>
    have hq := h q (List.mem_cons_self q l)
    simp only [List.cons_append, smGet, List.find?, hq]
    exact ih (fun r hr => h r (List.mem_cons_of_mem q hr))

theorem smGet_insert_self (m : SyncMap) (p v : List Char) :
    smGet (smInsert m p v) p = some v :=
  smGet_append_single (smErase m p) p v (fun q hq => mem_smErase_ne m p q hq)

theorem filter_smInsert_self (m : SyncMap) (p v : List Char) :
    (smInsert m p v).filter (fun q => q.1 == p) = [(p, v)] := by
  unfold smInsert
  rw [List.filter_append]
  have h1 : (smErase m p).filter (fun q => q.1 == p) = [] := by
    rw [List.filter_eq_nil_iff]
    intro q hq
    simp [mem_smErase_ne m p q hq]
  rw [h1]
  simp [List.filter]

theorem classifyOrigin_some (sm : SyncMap) (p n : List Char)
    (h : smGet sm p = some n) : classifyOrigin sm p = .internal n := by
  simp [classifyOrigin, h]

/-! ### Execute and dispatch lemmas -/

theorem execute_filter_false (pr : SyncProcess) (e : FileEvent) (sm : SyncMap)
    (w : World) (h : pr.filter e = false) :
    pr.execute e sm w = ⟨true, sm, w, []⟩ := by
  simp [SyncProcess.execute, h]

theorem execute_target_none (pr : SyncProcess) (e : FileEvent) (sm : SyncMap)
    (w : World) (hf : pr.filter e = true) (ht : pr.target e = none) :
    pr.execute e sm w = ⟨true, sm, w, []⟩ := by
  simp [SyncProcess.execute, hf, ht]

theorem execute_err_preserves (pr : SyncProcess) (e : FileEvent) (sm : SyncMap)
    (w : World) :
    (pr.execute e sm w).ok = false →
    (pr.execute e sm w).sync_map = sm ∧ (pr.execute e sm w).world = w := by
  unfold SyncProcess.execute
  repeat' split
  all_goals simp

theorem dispatchEvent_nil (e : FileEvent) (sm : SyncMap) (w : World) :
    dispatchEvent [] e sm w = (sm, w, []) := rfl

theorem dispatchEvent_inert (procs : List SyncProcess) (e : FileEvent)
    (sm : SyncMap) (w : World) (h : ∀ q ∈ procs, q.filter e = false) :
    dispatchEvent procs e sm w = (sm, w, []) := by
  induction procs with
  | nil => rfl
  | cons p rest ih =>
    have hp := execute_filter_false p e sm w (h p (List.mem_cons_self p rest))
    simp [dispatchEvent, hp, ih (fun q hq => h q (List.mem_cons_of_mem p hq))]

theorem handleNotification_nil (sm : SyncMap) (w : World) (raw : RawKind)
    (p : List Char) : handleNotification [] sm w raw p = (sm, w, []) := by
  unfold handleNotification
  split <;> rfl

theorem handleNotification_inert (procs : List SyncProcess) (sm : SyncMap)
    (w : World) (raw : RawKind) (p : List Char)
    (h : ∀ q ∈ procs, ∀ e, q.filter e = false) :
    handleNotification procs sm w raw p = (sm, w, []) := by
  unfold handleNotification
  split
  · exact dispatchEvent_inert procs _ sm w (fun q hq => h q hq _)
  · rfl

/-! ### Claim theorems: origin tracking and dispatch (C1-C8) -/

set_option maxRecDepth 40000

/-- C1, counterexample: classification is a non-consuming
`HashMap::get`.  With a pending mapping for `_mara/b/x.txt` (as
registered by `A->B (txt files)`) and both shipped processors
registered, a Modify notification classifies as Internal, but the
mapping survives the dispatch, so a second notification for the same
path again classifies as Internal — not External as the claim
requires. -/
theorem C1_counterexample :
    classifyOrigin [("_mara/b/x.txt".data, "A->B (txt files)".data)]
        "_mara/b/x.txt".data = .internal "A->B (txt files)".data ∧
    (handleNotification [create_sync_a_to_b, create_sync_a_to_c]
        [("_mara/b/x.txt".data, "A->B (txt files)".data)]
        ⟨[("_mara/b/x.txt".data, [104])], [], [], []⟩ .modify
        "_mara/b/x.txt".data).1 =
      [("_mara/b/x.txt".data, "A->B (txt files)".data)] ∧
    classifyOrigin
        (handleNotification [create_sync_a_to_b, create_sync_a_to_c]
          [("_mara/b/x.txt".data, "A->B (txt files)".data)]
          ⟨[("_mara/b/x.txt".data, [104])], [], [], []⟩ .modify
          "_mara/b/x.txt".data).1
        "_mara/b/x.txt".data ≠ .external := by decide

/-- C1 (amended): when a notification arrives for a path that has a
pending mapping, classification returns `Internal(process_name)`, but
the mapping is NOT removed (the callback uses `sync_map.get`): as long
as no process action touches the map, any later notification for the
same path still classifies as `Internal(process_name)`, never
`External`. -/
theorem C1_get_not_consuming (sm : SyncMap) (p n : List Char)
    (procs : List SyncProcess) (w : World)
    (h : smGet sm p = some n)
    (hinert : ∀ q ∈ procs, ∀ e, q.filter e = false) :
    classifyOrigin sm p = .internal n ∧
    (handleNotification procs sm w .modify p).1 = sm ∧
    classifyOrigin (handleNotification procs sm w .modify p).1 p =
      .internal n := by
  have hc := classifyOrigin_some sm p n h
  rw [handleNotification_inert procs sm w .modify p hinert]
  exact ⟨hc, rfl, hc⟩

/-- C1 witness: instantiation of the amended theorem at a concrete
mapping with no registered processes. -/
theorem C1_witness :
    classifyOrigin [("_mara/b/x.txt".data, "N".data)] "_mara/b/x.txt".data =
      .internal "N".data ∧
    (handleNotification [] [("_mara/b/x.txt".data, "N".data)] ⟨[], [], [], []⟩
        .modify "_mara/b/x.txt".data).1 =
      [("_mara/b/x.txt".data, "N".data)] ∧
    classifyOrigin
        (handleNotification [] [("_mara/b/x.txt".data, "N".data)]
          ⟨[], [], [], []⟩ .modify "_mara/b/x.txt".data).1
        "_mara/b/x.txt".data = .internal "N".data :=
  C1_get_not_consuming [("_mara/b/x.txt".data, "N".data)] "_mara/b/x.txt".data
    "N".data [] ⟨[], [], [], []⟩ (by decide) (by simp)

/-- C2, counterexample: in `SyncProcess::execute` the sync-map insert
happens AFTER the `fs::write`, not strictly before it.  A successful
Create execution of `A->B (txt files)` produces the trace
read-write-insert, in which no `mapInsert` of the target precedes the
`fsWrite` of the target. -/
theorem C2_counterexample :
    (create_sync_a_to_b.execute evA [] wA).ok = true ∧
    (create_sync_a_to_b.execute evA [] wA).trace =
      [.fsRead "_mara/a/x.txt".data, .fsWrite "_mara/b/x.txt".data,
       .mapInsert "_mara/b/x.txt".data "A->B (txt files)".data] ∧
    precedesB (.mapInsert "_mara/b/x.txt".data "A->B (txt files)".data)
      (.fsWrite "_mara/b/x.txt".data)
      (create_sync_a_to_b.execute evA [] wA).trace = false ∧
    precedesB (.fsWrite "_mara/b/x.txt".data)
      (.mapInsert "_mara/b/x.txt".data "A->B (txt files)".data)
      (create_sync_a_to_b.execute evA [] wA).trace = true := by decide

/-- C2 (amended): within one process's handling of a Create or Modify
event the pending-write mapping is inserted into the sync map
immediately AFTER the successful write to the target (trace
read-write-insert); for Delete, the map entry is removed after the
filesystem remove (or directly, when the target does not exist). -/
theorem C2_insert_after_write (pr : SyncProcess) (e : FileEvent) (sm : SyncMap)
    (w : World) (t : List Char)
    (hf : pr.filter e = true) (ht : pr.target e = some t) :
    (∀ content out w2, e.event_kind ≠ .delete →
      w.read e.path = some content → pr.transform e content = some out →
      w.write t out = some w2 →
      pr.execute e sm w = ⟨true, smInsert sm t pr.name, w2,
        [.fsRead e.path, .fsWrite t, .mapInsert t pr.name]⟩) ∧
    (∀ w2, e.event_kind = .delete → w.fileExists t = true →
      w.removeFile t = some w2 →
      pr.execute e sm w =
        ⟨true, smErase sm t, w2, [.fsRemove t, .mapRemove t]⟩) ∧
    (e.event_kind = .delete → w.fileExists t = false →
      pr.execute e sm w = ⟨true, smErase sm t, w, [.mapRemove t]⟩) := by
  refine ⟨?_, ?_, ?_⟩
  · intro content out w2 hk hr htr hw
    cases hke : e.event_kind with
    | delete => exact absurd hke hk
    | create => simp [SyncProcess.execute, hf, ht, hke, hr, htr, hw]
    | modify => simp [SyncProcess.execute, hf, ht, hke, hr, htr, hw]
  · intro w2 hk hex hrm
    simp [SyncProcess.execute, hf, ht, hk, hex, hrm]
  · intro hk hex
    simp [SyncProcess.execute, hf, ht, hk, hex]

/-- C2 witness: the amended theorem instantiated on `A->B (txt files)`
handling a concrete Create event, with every hypothesis discharged by
evaluation. -/
theorem C2_witness :
    create_sync_a_to_b.execute evA [] wA =
      ⟨true, smInsert [] "_mara/b/x.txt".data create_sync_a_to_b.name,
        ⟨[("_mara/a/x.txt".data, [104, 105]),
          ("_mara/b/x.txt".data, [104, 105])], [], [], []⟩,
        [.fsRead evA.path, .fsWrite "_mara/b/x.txt".data,
         .mapInsert "_mara/b/x.txt".data create_sync_a_to_b.name]⟩ :=
  (C2_insert_after_write create_sync_a_to_b evA [] wA "_mara/b/x.txt".data
    (by decide) (by decide)).1 [104, 105] [104, 105]
    ⟨[("_mara/a/x.txt".data, [104, 105]),
      ("_mara/b/x.txt".data, [104, 105])], [], [], []⟩
    (by decide) (by decide) (by decide) (by decide)

/-- C3, counterexample: the sync map is a `HashMap`, so registering a
second mapping for the same target path OVERWRITES the first instead
of queueing it.  After registering `N1` then `N2` for the same path the
registry holds only `(path, N2)`, and the next two notifications both
classify as `Internal(N2)` — the first is not `Internal(N1)` as the
claim requires. -/
theorem C3_counterexample :
    smInsert (smInsert [] "_mara/b/x.txt".data "N1".data) "_mara/b/x.txt".data
        "N2".data = [("_mara/b/x.txt".data, "N2".data)] ∧
    classifyOrigin
        (smInsert (smInsert [] "_mara/b/x.txt".data "N1".data)
          "_mara/b/x.txt".data "N2".data) "_mara/b/x.txt".data ≠
      .internal "N1".data ∧
    classifyOrigin
        (smInsert (smInsert [] "_mara/b/x.txt".data "N1".data)
          "_mara/b/x.txt".data "N2".data) "_mara/b/x.txt".data =
      .internal "N2".data := by decide

/-- C3 (amended): registering two mappings for the same target path in
order `N1` then `N2` leaves exactly one entry for that path, valued
`N2`; since classification does not consume entries, both of the next
two notifications for the path classify as `Internal(N2)`. -/
theorem C3_insert_overwrites (sm : SyncMap) (p n1 n2 : List Char) (w : World) :
    (smInsert (smInsert sm p n1) p n2).filter (fun q => q.1 == p) =
      [(p, n2)] ∧
    classifyOrigin (smInsert (smInsert sm p n1) p n2) p = .internal n2 ∧
    (handleNotification [] (smInsert (smInsert sm p n1) p n2) w .modify p).1 =
      smInsert (smInsert sm p n1) p n2 ∧
    classifyOrigin
      (handleNotification [] (smInsert (smInsert sm p n1) p n2) w
        .modify p).1 p = .internal n2 := by
  have hg := classifyOrigin_some _ p n2 (smGet_insert_self (smInsert sm p n1) p n2)
  rw [handleNotification_nil]
  exact ⟨filter_smInsert_self (smInsert sm p n1) p n2, hg, rfl, hg⟩

/-- C4, counterexample: the watcher callback's Remove branch
(manager.rs lines 180-185) never consults the sync map: a Remove
notification for a path with a pending mapping is dispatched with
origin `External`, not `Internal`. -/
theorem C4_counterexample :
    notificationEvent [("_mara/c/x.txt".data, "A<->C (bidirectional)".data)]
        ⟨[], [], [], []⟩ .remove "_mara/c/x.txt".data =
      some ⟨"_mara/c/x.txt".data, .delete, .external⟩ ∧
    (EventOrigin.external ≠
      .internal "A<->C (bidirectional)".data) := by decide

/-- C4 (amended): Create and Modify notifications for existing files
are classified through the pending-write registry before dispatch, but
Remove notifications are always dispatched with origin `External`,
without consulting the registry. -/
theorem C4_remove_not_classified (sm : SyncMap) (w : World) (p n : List Char) :
    notificationEvent sm w .remove p = some ⟨p, .delete, .external⟩ ∧
    (w.fileExists p = true → smGet sm p = some n →
      notificationEvent sm w .create p = some ⟨p, .create, .internal n⟩ ∧
      notificationEvent sm w .modify p = some ⟨p, .modify, .internal n⟩) := by
  constructor
  · rfl
  · intro hex hget
    constructor <;>
      simp [notificationEvent, hex, FileEvent.new, FileEvent.with_origin,
        classifyOrigin, hget]

/-- C4 witness: amended theorem instantiated at a concrete mapping and
world. -/
theorem C4_witness :
    notificationEvent [("_mara/b/x.txt".data, "N".data)]
        ⟨[("_mara/b/x.txt".data, [104])], [], [], []⟩ .create
        "_mara/b/x.txt".data =
      some ⟨"_mara/b/x.txt".data, .create, .internal "N".data⟩ ∧
    notificationEvent [("_mara/b/x.txt".data, "N".data)]
        ⟨[("_mara/b/x.txt".data, [104])], [], [], []⟩ .modify
        "_mara/b/x.txt".data =
      some ⟨"_mara/b/x.txt".data, .modify, .internal "N".data⟩ :=
  (C4_remove_not_classified [("_mara/b/x.txt".data, "N".data)]
    ⟨[("_mara/b/x.txt".data, [104])], [], [], []⟩ "_mara/b/x.txt".data
    "N".data).2 (by decide) (by decide)

/-- C5, counterexample: the filter of `create_sync_a_to_b` never
inspects `event.origin`, so it accepts an event under `_mara/a` whose
origin is this process's own name, and `execute` then performs a full
read-transform-write for it. -/
theorem C5_counterexample :
    create_sync_a_to_b.filter
        ⟨"_mara/a/x.txt".data, .modify, .internal "A->B (txt files)".data⟩ =
      true ∧
    (create_sync_a_to_b.execute
        ⟨"_mara/a/x.txt".data, .modify, .internal "A->B (txt files)".data⟩
        [] wA).trace =
      [.fsRead "_mara/a/x.txt".data, .fsWrite "_mara/b/x.txt".data,
       .mapInsert "_mara/b/x.txt".data "A->B (txt files)".data] := by decide

/-- C5 (amended): `create_sync_a_to_c`'s filter returns false for every
event whose origin is `Internal` of its own registered name, but
`create_sync_a_to_b`'s filter ignores the origin entirely and accepts
self-internal events (e.g. for path `_mara/a/x.txt`). -/
theorem C5_self_exclusion (e : FileEvent)
    (h : e.origin = .internal create_sync_a_to_c.name) :
    create_sync_a_to_c.filter e = false ∧
    create_sync_a_to_b.filter
        ⟨"_mara/a/x.txt".data, .modify,
          .internal create_sync_a_to_b.name⟩ = true := by
  constructor
  · obtain ⟨p, k, o⟩ := e
    simp only [create_sync_a_to_c] at h ⊢
    rw [h]
    simp
  · decide

/-- C5 witness: the amended theorem applied to a concrete self-internal
event of `create_sync_a_to_c`. -/
theorem C5_witness :
    create_sync_a_to_c.filter
        ⟨"_mara/c/y.txt".data, .modify,
          .internal "A<->C (bidirectional)".data⟩ = false ∧
    create_sync_a_to_b.filter
        ⟨"_mara/a/x.txt".data, .modify,
          .internal create_sync_a_to_b.name⟩ = true :=
  C5_self_exclusion
    ⟨"_mara/c/y.txt".data, .modify, .internal "A<->C (bidirectional)".data⟩
    rfl

/-- C6: error isolation per process.  If the first process's `execute`
fails on an event, `dispatch_event` still runs every following process
on the same event from the same sync map and world (a failing execute
leaves both unchanged), in registration order; only the failing
process's trace is prepended. -/
theorem C6_error_isolation (p1 : SyncProcess) (rest : List SyncProcess)
    (e : FileEvent) (sm : SyncMap) (w : World)
    (h : (p1.execute e sm w).ok = false) :
    dispatchEvent (p1 :: rest) e sm w =
      ((dispatchEvent rest e sm w).1, (dispatchEvent rest e sm w).2.1,
       (p1.execute e sm w).trace ++ (dispatchEvent rest e sm w).2.2) := by
  have hp := execute_err_preserves p1 e sm w h
  simp only [dispatchEvent]
  rw [hp.1, hp.2]

/-- C6 witness: a process with an always-failing transform followed by
`A->B (txt files)`; the failing first process does not prevent the
second from executing. -/
theorem C6_witness :
    dispatchEvent (failingProc :: [create_sync_a_to_b]) evA [] wA =
      ((dispatchEvent [create_sync_a_to_b] evA [] wA).1,
       (dispatchEvent [create_sync_a_to_b] evA [] wA).2.1,
       (failingProc.execute evA [] wA).trace ++
         (dispatchEvent [create_sync_a_to_b] evA [] wA).2.2) :=
  C6_error_isolation failingProc [create_sync_a_to_b] evA [] wA (by decide)

/-- C7, counterexample: classification compares raw path strings with
no normalization.  A mapping registered under the working-directory
relative path `_mara/b/x.txt` (exactly what `Path::join` produces in
the processors) does not match a notification delivered with the
corresponding absolute path, which therefore classifies as
`External`. -/
theorem C7_counterexample :
    ("/Users/ba22036/RustroverProjects/mara_watch/".data ++
        "_mara/b/x.txt".data =
      "/Users/ba22036/RustroverProjects/mara_watch/_mara/b/x.txt".data) ∧
    classifyOrigin [("_mara/b/x.txt".data, "A->B (txt files)".data)]
        "/Users/ba22036/RustroverProjects/mara_watch/_mara/b/x.txt".data =
      .external := by decide

/-- C7 (amended): classification matches a notification path against
registered target paths by exact string equality of the raw forms:
a path that differs from every registered key classifies as
`External`, and only an exactly equal key yields `Internal`. -/
theorem C7_no_normalization (sm : SyncMap) (p : List Char) :
    ((∀ q ∈ sm, q.1 ≠ p) → classifyOrigin sm p = .external) ∧
    (∀ n, smGet sm p = some n → classifyOrigin sm p = .internal n) := by
  constructor
  · intro h
    have : smGet sm p = none := by
      unfold smGet
      rw [List.find?_eq_none.mpr]
      · rfl
      · intro q hq
        simp [h q hq]
    simp [classifyOrigin, this]
  · intro n h
    exact classifyOrigin_some sm p n h

/-- C7 witness: the amended theorem applied to the concrete
relative-registration / absolute-notification pair. -/
theorem C7_witness :
    classifyOrigin [("_mara/b/x.txt".data, "N".data)]
        "/Users/ba22036/RustroverProjects/mara_watch/_mara/b/x.txt".data =
      .external :=
  (C7_no_normalization [("_mara/b/x.txt".data, "N".data)]
    "/Users/ba22036/RustroverProjects/mara_watch/_mara/b/x.txt".data).1
    (by decide)

/-- C8: `SyncProcess::execute` leaves the sync map (and the world)
exactly as they were whenever it returns an error, and a rejected
filter or a `None` target yields `Ok` with sync map, world and trace
untouched. -/
theorem C8_execute_atomic (pr : SyncProcess) (e : FileEvent) (sm : SyncMap)
    (w : World) :
    ((pr.execute e sm w).ok = false →
      (pr.execute e sm w).sync_map = sm ∧ (pr.execute e sm w).world = w) ∧
    (pr.filter e = false → pr.execute e sm w = ⟨true, sm, w, []⟩) ∧
    (pr.filter e = true → pr.target e = none →
      pr.execute e sm w = ⟨true, sm, w, []⟩) :=
  ⟨execute_err_preserves pr e sm w,
   fun h => execute_filter_false pr e sm w h,
   fun hf ht => execute_target_none pr e sm w hf ht⟩

/-- C8 witness: the failing-transform process errors on a concrete
event and the sync map and world are unchanged. -/
theorem C8_witness :
    (failingProc.execute evA [] wA).sync_map = [] ∧
    (failingProc.execute evA [] wA).world = wA :=
  (C8_execute_atomic failingProc evA [] wA).1 (by decide)

/-! ### Todo processor: parse/render round trip (C9) -/

theorem trimR_append (l1 l2 : List Char) :
    trimR (l1 ++ l2) = if trimR l2 = [] then trimR l1 else l1 ++ trimR l2 := by
  induction l1 with
  | nil =>
    by_cases h : trimR l2 = []
    · simp [h, trimR]
    · simp [h]
  | cons c l1 ih =>
    by_cases h : trimR l2 = []
    · rw [if_pos h] at ih
      simp only [List.cons_append, trimR, List.append_eq, if_pos h]
      rw [ih]
    · rw [if_neg h] at ih
      have hne : l1 ++ trimR l2 ≠ [] := by
        intro hx
        exact h (List.append_eq_nil.mp hx).2
      rw [if_neg h, List.cons_append,
        trimR_cons_of_ne c (l1 ++ l2) (by rw [ih]; exact hne), ih]
      rfl

theorem trimmedB_lastNotWs (t : List Char) (h : trimmedB t = true) :
    lastNotWs t = true := by
  simp [trimmedB] at h
  exact h.2

theorem trimmedB_trimR (t : List Char) (h : trimmedB t = true) : trimR t = t :=
  trimR_eq_self t (trimmedB_lastNotWs t h)

theorem rtrim_act_line (t : List Char) (ht : trimmedB t = true) :
    rtrim ("[] ".data ++ t) =
      '[' :: ']' :: (if t = [] then [] else ' ' :: t) := by
  have hL : trimL ("[] ".data ++ t) = "[] ".data ++ t := by
    apply trimL_eq_self
    show headNotWs ('[' :: _) = true
    simp [headNotWs]
    decide
  unfold rtrim
  rw [hL]
  have h3 : ("[] ".data ++ t) = ['[', ']', ' '] ++ t := rfl
  rw [h3, trimR_append]
  by_cases h0 : t = []
  · subst h0
    simp
    decide
  · rw [trimmedB_trimR t ht, if_neg h0, if_neg h0]
    rfl

theorem rtrim_done_line (t : List Char) (ht : trimmedB t = true) :
    rtrim ("[x] ".data ++ t) =
      '[' :: 'x' :: ']' :: (if t = [] then [] else ' ' :: t) := by
  have hL : trimL ("[x] ".data ++ t) = "[x] ".data ++ t := by
    apply trimL_eq_self
    show headNotWs ('[' :: _) = true
    simp [headNotWs]
    decide
  unfold rtrim
  rw [hL]
  have h3 : ("[x] ".data ++ t) = ['[', 'x', ']', ' '] ++ t := rfl
  rw [h3, trimR_append]
  by_cases h0 : t = []
  · subst h0
    simp
    decide
  · rw [trimmedB_trimR t ht, if_neg h0, if_neg h0]
    rfl

theorem rtrim_sp_cons (t : List Char) (ht : trimmedB t = true) :
    rtrim (' ' :: t) = t := by
  have h1 : rtrim (' ' :: t) = rtrim t := rtrim_cons_ws ' ' t (by decide)
  rw [h1]
  exact rtrim_eq_self t ht

theorem todoStep_act (st : TodoParseSt) (e : TodoEntry)
    (hN : st.inNew = false) (hCm : st.inCompleted = false)
    (hwf : trimmedB e.text = true) (hc : e.completed = false) :
    todoStep st (todoActiveLine e) = { st with active := st.active ++ [e] } := by
  obtain ⟨t, c⟩ := e
  obtain ⟨sa, sc, sn, siN, siC⟩ := st
  simp only at hc hwf hN hCm
  subst hc
  subst hN
  subst hCm
  by_cases h0 : t = []
  · subst h0
    rfl
  · have hr2 : rtrim ('[' :: ']' :: ' ' :: t) = '[' :: ']' :: ' ' :: t := by
      have hr := rtrim_act_line t hwf
      rw [if_neg h0] at hr
      exact hr
    simp [todoStep, todoActiveLine, hr2, List.isPrefixOf, List.findIdx?_cons,
      todoSep, TodoEntry.with_status, rtrim_sp_cons t hwf]
    decide

theorem todoStep_done (st : TodoParseSt) (e : TodoEntry)
    (hN : st.inNew = false) (hCm : st.inCompleted = true)
    (hwf : trimmedB e.text = true) (hc : e.completed = true) :
    todoStep st (todoDoneLine e) =
      { st with completed := st.completed ++ [e] } := by
  obtain ⟨t, c⟩ := e
  obtain ⟨sa, sc, sn, siN, siC⟩ := st
  simp only at hc hwf hN hCm
  subst hc
  subst hN
  subst hCm
  by_cases h0 : t = []
  · subst h0
    rfl
  · have hr2 : rtrim ('[' :: 'x' :: ']' :: ' ' :: t) = '[' :: 'x' :: ']' :: ' ' :: t := by
      have hr := rtrim_done_line t hwf
      rw [if_neg h0] at hr
      exact hr
    simp [todoStep, todoDoneLine, hr2, List.isPrefixOf, List.findIdx?_cons,
      todoSep, TodoEntry.with_status, rtrim_sp_cons t hwf]
    decide

theorem todoStep_sep (st : TodoParseSt) :
    todoStep st todoSep = { st with inCompleted := true } := rfl

theorem foldl_act_lines (es : List TodoEntry) (st : TodoParseSt)
    (hN : st.inNew = false) (hCm : st.inCompleted = false)
    (hes : ∀ e ∈ es, trimmedB e.text = true ∧ e.completed = false) :
    (es.map todoActiveLine).foldl todoStep st =
      { st with active := st.active ++ es } := by
  induction es generalizing st with
  | nil => simp
  | cons e es ih =>
    have he := hes e (List.mem_cons_self e es)
    rw [List.map_cons, List.foldl_cons,
      todoStep_act st e hN hCm he.1 he.2,
      ih { st with active := st.active ++ [e] } hN hCm
        (fun q hq => hes q (List.mem_cons_of_mem e hq))]
    simp

theorem foldl_done_lines (es : List TodoEntry) (st : TodoParseSt)
    (hN : st.inNew = false) (hCm : st.inCompleted = true)
    (hes : ∀ e ∈ es, trimmedB e.text = true ∧ e.completed = true) :
    (es.map todoDoneLine).foldl todoStep st =
      { st with completed := st.completed ++ es } := by
  induction es generalizing st with
  | nil => simp
  | cons e es ih =>
    have he := hes e (List.mem_cons_self e es)
    rw [List.map_cons, List.foldl_cons,
      todoStep_done st e hN hCm he.1 he.2,
      ih { st with completed := st.completed ++ [e] } hN hCm
        (fun q hq => hes q (List.mem_cons_of_mem e hq))]
    simp

theorem parseLines_render_shape (A C : List TodoEntry)
    (hA : ∀ e ∈ A, trimmedB e.text = true ∧ e.completed = false)
    (hC : ∀ e ∈ C, trimmedB e.text = true ∧ e.completed = true) :
    TodoLog.parseLines (["Neues Todo:".data, [], "Todos:".data]
      ++ A.map todoActiveLine
      ++ (if C.isEmpty then [] else [todoSep])
      ++ C.map todoDoneLine) = ⟨A ++ C⟩ := by
  unfold TodoLog.parseLines
  rw [List.foldl_append, List.foldl_append, List.foldl_append]
  have h0 : (["Neues Todo:".data, [], "Todos:".data]).foldl todoStep todoInit =
      todoInit := by decide
  rw [h0, foldl_act_lines A todoInit rfl rfl hA]
  by_cases hce : C = []
  · subst hce
    simp [todoInit]
  · have hne : C.isEmpty = false := by
      simp [List.isEmpty_iff, hce]
    rw [hne]
    simp only [Bool.false_eq_true, if_false, List.foldl_cons, List.foldl_nil,
      todoStep_sep]
    rw [foldl_done_lines C _ rfl rfl hC]
    simp [todoInit]

theorem stripCr_sp_line (pre t : List Char) (hp : pre.getLast? = some ' ')
    (ht : lastNotWs t = true) : stripCr (pre ++ t) = pre ++ t := by
  unfold stripCr
  rw [List.getLast?_append, hp]
  cases hl : t.getLast? with
  | none => simp
  | some c =>
    unfold lastNotWs at ht
    rw [hl] at ht
    have hcr : c ≠ '\r' := by
      intro hcc
      subst hcc
      exact absurd ht (by decide)
    simp [Option.or, hcr]

theorem nl_not_mem_act (e : TodoEntry) (he : ('\n' : Char) ∉ e.text) :
    ('\n' : Char) ∉ todoActiveLine e := by
  unfold todoActiveLine
  intro h
  rcases List.mem_append.mp h with h | h
  · exact absurd h (by decide)
  · exact he h

theorem nl_not_mem_done (e : TodoEntry) (he : ('\n' : Char) ∉ e.text) :
    ('\n' : Char) ∉ todoDoneLine e := by
  unfold todoDoneLine
  intro h
  rcases List.mem_append.mp h with h | h
  · exact absurd h (by decide)
  · exact he h

theorem rustLines_render_shape (A C : List TodoEntry)
    (hA : ∀ e ∈ A, entryWF e) (hC : ∀ e ∈ C, entryWF e) :
    rustLines ("Neues Todo:\n\nTodos:\n".data
        ++ joinNl (A.map todoActiveLine)
        ++ (if C.isEmpty then [] else todoSep ++ ['\n'])
        ++ joinNl (C.map todoDoneLine)) =
      ["Neues Todo:".data, [], "Todos:".data] ++ A.map todoActiveLine
        ++ (if C.isEmpty then [] else [todoSep]) ++ C.map todoDoneLine := by
  have hjoin : "Neues Todo:\n\nTodos:\n".data
      ++ joinNl (A.map todoActiveLine)
      ++ (if C.isEmpty then [] else todoSep ++ ['\n'])
      ++ joinNl (C.map todoDoneLine) =
      joinNl (["Neues Todo:".data, [], "Todos:".data] ++ A.map todoActiveLine
        ++ (if C.isEmpty then [] else [todoSep]) ++ C.map todoDoneLine)
        ++ [] := by
    rw [joinNl_append, joinNl_append, joinNl_append, List.append_nil]
    have h1 : "Neues Todo:\n\nTodos:\n".data =
        joinNl ["Neues Todo:".data, [], "Todos:".data] := by decide
    have h2 : (if C.isEmpty then ([] : List Char) else todoSep ++ ['\n']) =
        joinNl (if C.isEmpty then [] else [todoSep]) := by
      by_cases h : C.isEmpty <;> simp [h, joinNl]
    rw [h1, h2]
  rw [hjoin, rustLines_joinNl _ _ ?cond, rustLines_nil, List.append_nil]
  case cond =>
    intro l hl
    rcases List.mem_append.mp hl with hl | hl
    · rcases List.mem_append.mp hl with hl | hl
      · rcases List.mem_append.mp hl with hl | hl
        · -- header lines
          simp only [List.mem_cons, List.not_mem_nil, or_false] at hl
          rcases hl with h | h | h <;> subst h <;>
            exact ⟨by decide, by decide⟩
        · -- active lines
          rcases List.mem_map.mp hl with ⟨e, he, hle⟩
          have hw := hA e he
          subst hle
          refine ⟨nl_not_mem_act e hw.2, ?_⟩
          exact stripCr_sp_line "[] ".data e.text (by decide)
            (trimmedB_lastNotWs e.text hw.1)
      · -- separator line
        by_cases h : C.isEmpty
        · rw [if_pos h] at hl
          exact absurd hl (by simp)
        · rw [if_neg h] at hl
          simp at hl
          subst hl
          exact ⟨by decide, by decide⟩
    · -- completed lines
      rcases List.mem_map.mp hl with ⟨e, he, hle⟩
      have hw := hC e he
      subst hle
      refine ⟨nl_not_mem_done e hw.2, ?_⟩
      exact stripCr_sp_line "[x] ".data e.text (by decide)
        (trimmedB_lastNotWs e.text hw.1)

theorem todoStep_wf (st : TodoParseSt) (line : List Char) (hst : stWF st)
    (hl : ('\n' : Char) ∉ line) : stWF (todoStep st line) := by
  have hnlr : ('\n' : Char) ∉ rtrim line := fun hm => hl (mem_rtrim line _ hm)
  have hdropNl : ∀ n : Nat,
      ('\n' : Char) ∉ rtrim (List.drop n (rtrim line)) := by
    intro n hm
    exact hl (mem_rtrim line _ (List.mem_of_mem_drop (mem_rtrim _ _ hm)))
  simp only [todoStep]
  split
  · exact hst
  split
  · exact hst
  split
  · exact hst
  split
  · exact hst
  split
  · refine ⟨?_, hst.2.1, hst.2.2⟩
    intro t ht
    rcases List.mem_append.mp ht with h | h
    · exact hst.1 t h
    · simp at h
      subst h
      exact ⟨trimmedB_rtrim line, hnlr⟩
  split
  · split
    · split
      · split
        · refine ⟨hst.1, hst.2.1, ?_⟩
          intro x hx
          rcases List.mem_append.mp hx with h | h
          · exact hst.2.2 x h
          · simp at h
            subst h
            exact ⟨trimmedB_rtrim _, hdropNl _⟩
        · refine ⟨hst.1, ?_, hst.2.2⟩
          intro x hx
          rcases List.mem_append.mp hx with h | h
          · exact hst.2.1 x h
          · simp at h
            subst h
            exact ⟨trimmedB_rtrim _, hdropNl _⟩
      · exact hst
    · exact hst
  · exact hst

theorem foldl_todoStep_wf (lines : List (List Char)) (st : TodoParseSt)
    (hst : stWF st) (h : ∀ l ∈ lines, ('\n' : Char) ∉ l) :
    stWF (lines.foldl todoStep st) := by
  induction lines generalizing st with
  | nil => exact hst
  | cons l ls ih =>
    rw [List.foldl_cons]
    exact ih (todoStep st l) (todoStep_wf st l hst (h l (List.mem_cons_self l ls)))
      (fun q hq => h q (List.mem_cons_of_mem l hq))

theorem parse_wf (content : List Char) :
    ∀ e ∈ (TodoLog.parse content).entries, entryWF e := by
  intro e he
  unfold TodoLog.parse TodoLog.parseLines at he
  have hwf : stWF ((rustLines content).foldl todoStep todoInit) :=
    foldl_todoStep_wf (rustLines content) todoInit
      (by exact ⟨fun t ht => absurd ht (List.not_mem_nil t),
        fun q hq => absurd hq (List.not_mem_nil q),
        fun q hq => absurd hq (List.not_mem_nil q)⟩)
      (fun l hl => rustLines_no_nl content l hl)
  simp only at he
  rcases List.mem_append.mp he with h | h
  · rcases List.mem_append.mp h with h | h
    · rcases List.mem_map.mp h with ⟨t, ht, hte⟩
      subst hte
      exact hwf.1 t ht
    · exact hwf.2.1 e h
  · exact hwf.2.2 e h

theorem parse_render_eq (log : TodoLog) (hwf : ∀ e ∈ log.entries, entryWF e) :
    TodoLog.parse (TodoLog.render log) =
      ⟨log.entries.filter (fun e => !e.completed) ++
        log.entries.filter (fun e => e.completed)⟩ := by
  have hA : ∀ e ∈ log.entries.filter (fun e => !e.completed), entryWF e :=
    fun e he => hwf e (List.mem_of_mem_filter he)
  have hC : ∀ e ∈ log.entries.filter (fun e => e.completed), entryWF e :=
    fun e he => hwf e (List.mem_of_mem_filter he)
  have hA2 : ∀ e ∈ log.entries.filter (fun e => !e.completed),
      trimmedB e.text = true ∧ e.completed = false := by
    intro e he
    refine ⟨(hA e he).1, ?_⟩
    have := (List.mem_filter.mp he).2
    simp at this
    exact this
  have hC2 : ∀ e ∈ log.entries.filter (fun e => e.completed),
      trimmedB e.text = true ∧ e.completed = true :=
    fun e he => ⟨(hC e he).1, (List.mem_filter.mp he).2⟩
  have hlines : rustLines (TodoLog.render log) =
      ["Neues Todo:".data, [], "Todos:".data]
        ++ (log.entries.filter (fun e => !e.completed)).map todoActiveLine
        ++ (if (log.entries.filter (fun e => e.completed)).isEmpty then []
            else [todoSep])
        ++ (log.entries.filter (fun e => e.completed)).map todoDoneLine :=
    rustLines_render_shape _ _ hA hC
  unfold TodoLog.parse
  rw [hlines]
  exact parseLines_render_shape _ _ hA2 hC2

theorem render_filter_split (log : TodoLog) :
    TodoLog.render ⟨log.entries.filter (fun e => !e.completed) ++
      log.entries.filter (fun e => e.completed)⟩ = TodoLog.render log := by
  unfold TodoLog.render
  simp only
  rw [List.filter_append, List.filter_append]
  have h1 : (log.entries.filter (fun e => !e.completed)).filter
      (fun e => !e.completed) = log.entries.filter (fun e => !e.completed) :=
    List.filter_eq_self.mpr (fun a ha => (List.mem_filter.mp ha).2)
  have h2 : (log.entries.filter (fun e => e.completed)).filter
      (fun e => !e.completed) = [] := by
    rw [List.filter_eq_nil_iff]
    intro a ha
    have := (List.mem_filter.mp ha).2
    simp [this]
  have h3 : (log.entries.filter (fun e => !e.completed)).filter
      (fun e => e.completed) = [] := by
    rw [List.filter_eq_nil_iff]
    intro a ha
    have := (List.mem_filter.mp ha).2
    simp at this
    simp [this]
  have h4 : (log.entries.filter (fun e => e.completed)).filter
      (fun e => e.completed) = log.entries.filter (fun e => e.completed) :=
    List.filter_eq_self.mpr (fun a ha => (List.mem_filter.mp ha).2)
  rw [h1, h2, h3, h4, List.append_nil, List.nil_append]

/-- C9: one parse-then-render pass of the todo rewrite reaches a fixed
point: `render (parse (render (parse s))) = render (parse s)` for every
input, and re-parsing the rendered form yields exactly the
not-completed entries (in order) followed by the completed entries (in
order) of the first parse — i.e. in the rendered output all
not-completed entries precede the separator and all completed entries
follow it, with relative order preserved. -/
theorem C9_parse_render_idem (s : List Char) :
    TodoLog.render (TodoLog.parse (TodoLog.render (TodoLog.parse s))) =
      TodoLog.render (TodoLog.parse s) ∧
    (TodoLog.parse (TodoLog.render (TodoLog.parse s))).entries =
      (TodoLog.parse s).entries.filter (fun e => !e.completed) ++
        (TodoLog.parse s).entries.filter (fun e => e.completed) := by
  have hp := parse_render_eq (TodoLog.parse s) (parse_wf s)
  constructor
  · rw [hp]
    exact render_filter_split (TodoLog.parse s)
  · rw [hp]

/-! ### Doku processor: create_summary (C10) -/

theorem blen_append (a b : List Char) : blen (a ++ b) = blen a + blen b := by
  induction a with
  | nil => simp [blen]
  | cons c cs ih => simp [blen, ih]; omega

theorem truncateBytes_blen (l : List Char) (n : Nat) (r : List Char)
    (h : truncateBytes l n = some r) : blen r ≤ n := by
  induction l generalizing n r with
  | nil =>
    cases n with
    | zero =>
      simp [truncateBytes] at h
      subst h
      simp [blen]
    | succ m =>
      simp [truncateBytes] at h
      subst h
      simp [blen]
  | cons c cs ih =>
    cases n with
    | zero =>
      simp [truncateBytes] at h
      subst h
      simp [blen]
    | succ m =>
      rw [truncateBytes] at h
      by_cases hc : csize c ≤ m + 1
      · rw [if_pos hc] at h
        cases hr : truncateBytes cs (m + 1 - csize c) with
        | none => rw [hr] at h; simp at h
        | some r2 =>
          rw [hr] at h
          simp at h
          subst h
          have := ih (m + 1 - csize c) r2 hr
          simp [blen]
          omega
      · rw [if_neg hc] at h
        simp at h

theorem summaryLoop_bound (lines : List (List Char)) (acc s : List Char)
    (hacc : blen acc < 300) (h : summaryLoop lines acc = some s) :
    blen s ≤ 303 := by
  induction lines generalizing acc with
  | nil =>
    simp [summaryLoop] at h
    subst h
    omega
  | cons line rest ih =>
    rw [summaryLoop] at h
    split at h
    · exact ih acc hacc h
    · simp only at h
      split at h
      · rcases Option.map_eq_some'.mp h with ⟨r, hr, hs⟩
        subst hs
        have := truncateBytes_blen _ 300 r hr
        rw [blen_append]
        have h3 : blen ['.', '.', '.'] = 3 := by decide
        omega
      · rename_i hlt
        exact ih _ (by omega) h

theorem create_summary_props (content s : List Char)
    (h : DokuIndex.create_summary content = some s) :
    s ≠ [] ∧ blen s ≤ 303 := by
  unfold DokuIndex.create_summary at h
  rcases Option.map_eq_some'.mp h with ⟨t, ht, hs⟩
  subst hs
  have hb := summaryLoop_bound (rustLines content) [] t (by decide) ht
  by_cases h0 : t = []
  · subst h0
    exact ⟨by decide, by decide⟩
  · have he : (if t = [] then "[No content]".data else t) = t := if_neg h0
    rw [he]
    exact ⟨h0, hb⟩

/-- C10: `DokuIndex::create_summary` is NOT total: on a markdown file
whose first content line is 299 `a`s followed by `é`, the byte length
reaches 301 and `String::truncate(300)` panics because byte 300 is not
a character boundary (`none` in the model).  On every input where it
does return, the result is a non-empty string of at most 303 bytes,
as the claim states. -/
theorem C10_truncate_panic :
    DokuIndex.create_summary (List.replicate 299 'a' ++ ['é']) = none ∧
    (∀ content s, DokuIndex.create_summary content = some s →
      s ≠ [] ∧ blen s ≤ 303) := by
  constructor
  · decide
  · exact create_summary_props

/-- C10 witness: a concrete non-panicking run together with the bound. -/
theorem C10_witness :
    "hello".data ≠ ([] : List Char) ∧ blen "hello".data ≤ 303 :=
  C10_truncate_panic.2 "hello".data "hello".data (by decide)

/-! ### Sanity checks mirroring the repository's own unit tests -/

-- todo_processor.rs test_parse_mixed_todos
example :
    (TodoLog.parse "Neues Todo:\n\nTodos:\n[] Rasen\n[] Pflanzen\n-----------------\n[x] Muell\n".data).entries =
      [⟨"Rasen".data, false⟩, ⟨"Pflanzen".data, false⟩,
       ⟨"Muell".data, true⟩] := by decide

-- todo_processor.rs test_round_trip
example :
    TodoLog.render (TodoLog.parse "Neues Todo:\n\nTodos:\n[] Rasen\n-----------------\n[x] Muell\n".data) =
      "Neues Todo:\n\nTodos:\n[] Rasen\n-----------------\n[x] Muell\n".data := by
  decide

-- todo_processor.rs test_parse_new_todo_input
example :
    (TodoLog.parse "Neues Todo:\nNeues Item\n\nTodos:\n[] Rasen\n".data).entries =
      [⟨"Neues Item".data, false⟩, ⟨"Rasen".data, false⟩] := by decide

-- doku_processor.rs test_create_summary_with_formatting (markdown stripped)
example :
    DokuIndex.create_summary "# Title\n\nThis is **bold** text.\n".data =
      some "This is bold text.".data := by decide

-- create_summary of header-only input
example :
    DokuIndex.create_summary "# Title\n\n".data =
      some "[No content]".data := by decide

-- a long ASCII input truncates to exactly 303 bytes
example :
    (DokuIndex.create_summary (List.replicate 400 'a')).map blen =
      some 303 := by decide
